import Mathlib

/-!
Shallow embedding of the cosinekitty/interpolator library
(`interpolator.hpp` and its richer lineage) over the exact field ℚ.

A polynomial value is its coefficient list, index `i` holding the
coefficient of `x^i`, exactly as in the C++ `std::vector<range_t> coeff`.
The two `Interpolator` variants are embedded as well: the record-based
incremental one (fields `point`, `diffs`, `denom`, direct evaluation
`calc`), and the point-list one (`insert`/`clear`/`polynomial`).
-/

namespace CosineKitty

/-- `Polynomial::truncate`: drop the maximal run of trailing zero
coefficients (the C++ loop decrements `i` while `coeff[i-1] == 0`
and then resizes to `i`). -/
def truncate (c : List ℚ) : List ℚ :=
  (c.reverse.dropWhile (fun a => a == 0)).reverse

/-- The `Polynomial` constructors: store the coefficient list, then
`truncate()`. -/
def mkPoly (c : List ℚ) : List ℚ :=
  truncate c

/-- `Polynomial::operator()`: Horner evaluation.  The C++ walks the
coefficients from the top (`sum = x*sum + coeff[--i]`), returning 0 on
the empty list; this is exactly a right fold of `fun c acc => x*acc + c`. -/
def eval (c : List ℚ) (x : ℚ) : ℚ :=
  c.foldr (fun ci acc => x * acc + ci) 0

/-- `Polynomial::isZero`: true iff the coefficient list is empty. -/
def isZero (c : List ℚ) : Bool :=
  c.isEmpty

/-- Unary `operator-`: negate every coefficient (then the constructor
truncates). -/
def polyNeg (c : List ℚ) : List ℚ :=
  mkPoly (c.map (fun a => -a))

/-- `operator* (range_t scalar)`: multiply every coefficient by the
scalar (then the constructor truncates). -/
def polyScale (s : ℚ) (c : List ℚ) : List ℚ :=
  mkPoly (c.map (fun a => s * a))

/-- `operator+`: the C++ resizes to `max a b` (zero-filled), assigns
`sum[i] = coeff[i]` for `i < a` and adds `other.coeff[i]` for `i < b`;
entry `i` of the raw result is therefore `p[i] + q[i]` with missing
entries read as 0. -/
def polyAdd (p q : List ℚ) : List ℚ :=
  mkPoly ((List.range (max p.length q.length)).map
    (fun i => p.getD i 0 + q.getD i 0))

/-- `operator-` (binary): same shape as `operator+` with subtraction. -/
def polySub (p q : List ℚ) : List ℚ :=
  mkPoly ((List.range (max p.length q.length)).map
    (fun i => p.getD i 0 - q.getD i 0))

/-- Entry `n` of the raw convolution built by the double loop
`prod[i+j] += coeff[i] * other.coeff[j]`: the sum of `p[i] * q[n-i]`
over all `i ≤ n`, reading out-of-range coefficients as 0. -/
def convEntry (p q : List ℚ) (n : ℕ) : ℚ :=
  ((List.range (n + 1)).map (fun i => p.getD i 0 * q.getD (n - i) 0)).sum

/-- `operator*` (polynomial): if either operand is empty return the zero
polynomial, otherwise build the length `a + b - 1` convolution and
construct (which truncates). -/
def polyMul (p q : List ℚ) : List ℚ :=
  if p.length = 0 ∨ q.length = 0 then []
  else mkPoly ((List.range (p.length + q.length - 1)).map (convEntry p q))

/-- The multiplicative identity polynomial `Polynomial{1}`. -/
def onePoly : List ℚ :=
  mkPoly [1]

/-- Canonical form: the coefficient list has no trailing zero (in
particular the empty list is canonical).  This is the class invariant
maintained by `truncate`. -/
def Canon (c : List ℚ) : Prop :=
  c.getLast? ≠ some 0

instance (c : List ℚ) : Decidable (Canon c) := by
  unfold Canon; infer_instance

/-- Bridge to Mathlib polynomials, used only to transfer the fact that a
rational polynomial is determined by its values. -/
noncomputable def toPoly (c : List ℚ) : Polynomial ℚ :=
  c.foldr (fun a acc => Polynomial.C a + Polynomial.X * acc) 0

/-- `Polynomial::pow`'s square-and-accumulate loop.  `product` and
`square` are the loop state; `exponent & 1` selects whether to fold the
current square into the product, and `exponent >>= 1` is division by 2. -/
def powLoop (square product : List ℚ) (exponent : ℕ) : List ℚ :=
  let product2 := if exponent % 2 = 1 then polyMul product square else product
  if exponent / 2 = 0 then product2
  else powLoop (polyMul square square) product2 (exponent / 2)
termination_by exponent
decreasing_by omega

/-- `Polynomial::pow` (latest lineage) for the non-negative part of the
exponent: the two early-outs for 0 and 1, then the loop started with
`product = Polynomial{1}` and `square = *this`. -/
def powNat (p : List ℚ) (exponent : ℕ) : List ℚ :=
  if exponent = 0 then onePoly
  else if exponent = 1 then p
  else powLoop p onePoly exponent

/-- `Polynomial::pow` on a signed exponent: a negative exponent throws
`std::range_error`, modelled as `Except.error` carrying the message. -/
def powChecked (p : List ℚ) (exponent : ℤ) : Except String (List ℚ) :=
  if exponent < 0 then
    Except.error "Cannot raise Polynomial to a negative power."
  else
    Except.ok (powNat p exponent.toNat)

/-- Modelled from the spec: the naive `k`-fold repeated product of a
polynomial with itself, the empty product being the polynomial `[1]`.
Used as the reference point of the square-and-multiply refinement. -/
def naivePow (p : List ℚ) : ℕ → List ℚ
  | 0 => onePoly
  | k + 1 => polyMul (naivePow p k) p

/-- The loop body of `Polynomial::derivative`: starting at index `i`,
emit `i * coeff[i]` for each remaining coefficient. -/
def derivAux : List ℚ → ℕ → List ℚ
  | [], _ => []
  | c :: rest, i => (i : ℚ) * c :: derivAux rest (i + 1)

/-- `Polynomial::derivative`: push `i * coeff[i]` for `i = 1 .. n-1`. -/
def derivative (c : List ℚ) : List ℚ :=
  mkPoly (derivAux c.tail 1)

/-- The loop body of `Polynomial::integral`: starting with divisor `i`,
emit `coeff / i` for each remaining coefficient. -/
def integAux : List ℚ → ℕ → List ℚ
  | [], _ => []
  | c :: rest, i => c / (i : ℚ) :: integAux rest (i + 1)

/-- `Polynomial::integral`: push the arbitrary constant, then
`coeff[i] / (i+1)` for `i = 0 .. n-1`. -/
def integral (c : List ℚ) (arbitraryConstant : ℚ) : List ℚ :=
  mkPoly (arbitraryConstant :: integAux c 1)

/-- The free function `compose(f, g)`: running state is the pair
`(sum, gpow)`; at step `i > 0` the power is bumped by one multiplication
with `g`, then `fcoeff[i] * gpow` is added into the sum. -/
def compose (f g : List ℚ) : List ℚ :=
  ((List.range f.length).foldl
    (fun (acc : List ℚ × List ℚ) i =>
      let gpow := if 0 < i then polyMul acc.2 g else acc.2
      (polyAdd acc.1 (polyScale (f.getD i 0) gpow), gpow))
    ([], onePoly)).1

/-- The record stored per point by the incremental `Interpolator`:
the point itself, the numerator-root list `diffs`, and the scalar
denominator `denom`. -/
structure Coefficient where
  x : ℚ
  y : ℚ
  diffs : List ℚ
  denom : ℚ
deriving DecidableEq, Repr

/-- `Interpolator::insert` of the incremental (record-based) lineage:
reject a duplicate x unchanged; otherwise append `x` to every existing
record's root list and multiply its denominator by `(c.x - x)`, then
append a record for `(x, y)` whose roots are the existing x's and whose
denominator is the product of `(x - c.x)` starting from 1. -/
def insert1 (coeffs : List Coefficient) (x y : ℚ) : Bool × List Coefficient :=
  if coeffs.any (fun c => c.x == x) then (false, coeffs)
  else
    let updated := coeffs.map (fun c =>
      { c with diffs := c.diffs ++ [x], denom := c.denom * (c.x - x) })
    let d := updated.foldl (fun (d : Coefficient) c =>
      { d with diffs := d.diffs ++ [c.x], denom := d.denom * (x - c.x) })
      { x := x, y := y, diffs := [], denom := 1 }
    (true, updated ++ [d])

/-- One record's contribution factor inside `Interpolator::calc`:
`product / denom` where `product` multiplies `(x - d)` over the root
list starting from 1. -/
def term (c : Coefficient) (x : ℚ) : ℚ :=
  (c.diffs.foldl (fun p d => p * (x - d)) 1) / c.denom

/-- `Interpolator::calc`: accumulate `(product / denom) * y` over all
records, starting from the zero of the range type. -/
def calc1 (coeffs : List Coefficient) (x : ℚ) : ℚ :=
  coeffs.foldl (fun y c => y + term c x * c.y) 0

/-- A whole sequence of `insert` calls on the record-based
`Interpolator`, starting empty; the Boolean is the conjunction of all
the returned flags. -/
def insertAll1 (ps : List (ℚ × ℚ)) : Bool × List Coefficient :=
  ps.foldl (fun acc p =>
    let r := insert1 acc.2 p.1 p.2
    (acc.1 && r.1, r.2)) (true, [])

/-- `Interpolator::insert` of the point-list lineage: reject a
duplicate x unchanged, else push the point. -/
def insert2 (points : List (ℚ × ℚ)) (x y : ℚ) : Bool × List (ℚ × ℚ) :=
  if points.any (fun p => p.1 == x) then (false, points)
  else (true, points ++ [(x, y)])

/-- `Interpolator::clear`: empties the collection of points. -/
def clear (_points : List (ℚ × ℚ)) : List (ℚ × ℚ) :=
  []

/-- A whole sequence of `insert` calls on the point-list
`Interpolator`, starting empty. -/
def insertAll2 (ps : List (ℚ × ℚ)) : Bool × List (ℚ × ℚ) :=
  ps.foldl (fun acc p =>
    let r := insert2 acc.2 p.1 p.2
    (acc.1 && r.1, r.2)) (true, [])

/-- The x-coordinate of the `k`-th stored point. -/
def xco (ps : List (ℚ × ℚ)) (k : ℕ) : ℚ :=
  (ps.getD k (0, 0)).1

/-- The y-coordinate of the `j`-th stored point. -/
def yco (ps : List (ℚ × ℚ)) (j : ℕ) : ℚ :=
  (ps.getD j (0, 0)).2

/-- The inner loop of `Interpolator::polynomial`: starting from
`Polynomial{1}`, multiply in `(x - x_k)/(x_j - x_k)` written as the
degree-1 coefficient list `[-x_k/denom, 1/denom]`, skipping `k = j`. -/
def basisPoly (ps : List (ℚ × ℚ)) (j : ℕ) : List ℚ :=
  (List.range ps.length).foldl
    (fun frac k =>
      if k ≠ j then
        polyMul frac (mkPoly [-(xco ps k) / (xco ps j - xco ps k),
                              1 / (xco ps j - xco ps k)])
      else frac)
    onePoly

/-- `Interpolator::polynomial`: sum `y_j * fraction_j` over all stored
points, starting from the default (zero) polynomial. -/
def polynomial (ps : List (ℚ × ℚ)) : List ℚ :=
  (List.range ps.length).foldl
    (fun sum j => polyAdd sum (polyScale (yco ps j) (basisPoly ps j)))
    []

/-- The state invariant of the record-based `Interpolator`: the stored
x-coordinates are pairwise distinct, and every record's numerator-root
list is exactly the other records' x-coordinates (in insertion order)
with its denominator the matching product of differences. -/
def InvRecords (s : List Coefficient) : Prop :=
  (s.map (fun c => c.x)).Nodup ∧
  ∀ c ∈ s, c.diffs = (s.map (fun c => c.x)).erase c.x ∧
    c.denom = (((s.map (fun c => c.x)).erase c.x).map (fun t => c.x - t)).prod

theorem truncate_canon (c : List ℚ) : Canon (truncate c) := by
  unfold Canon truncate
  rw [List.getLast?_reverse]
  induction c.reverse with
  | nil => simp
  | cons a t ih =>
      by_cases h : a = 0
      · simpa [List.dropWhile_cons, h] using ih
      · simp [List.dropWhile_cons, h]

theorem truncate_eq_self {c : List ℚ} (h : Canon c) : truncate c = c := by
  unfold Canon at h
  unfold truncate
  cases hc : c.reverse with
  | nil =>
      have : c = [] := by simpa using congrArg List.reverse hc
      simp [this]
  | cons a t =>
      have ha : c.getLast? = some a := by
        rw [← List.head?_reverse, hc]; rfl
      have h0 : a ≠ 0 := by
        intro h0
        exact h (ha.trans (by rw [h0]))
      have hd : List.dropWhile (fun b => b == 0) (a :: t) = a :: t := by
        simp [List.dropWhile_cons, h0]
      rw [hd, ← hc, List.reverse_reverse]

/-- `truncate` only removes trailing zeros: the original list is the
truncated list followed by a block of zeros. -/
theorem truncate_append (c : List ℚ) :
    c = truncate c ++ List.replicate (c.length - (truncate c).length) 0 := by
  unfold truncate
  have hsplit := List.takeWhile_append_dropWhile (p := fun a => a == 0) (l := c.reverse)
  have hzero : c.reverse.takeWhile (fun a => a == 0)
      = List.replicate (c.reverse.takeWhile (fun a => a == 0)).length 0 := by
    apply List.eq_replicate_of_mem
    intro b hb
    have := List.mem_takeWhile_imp hb
    simpa using this
  calc c = c.reverse.reverse := by rw [List.reverse_reverse]
    _ = (c.reverse.takeWhile (fun a => a == 0) ++ c.reverse.dropWhile (fun a => a == 0)).reverse := by
          rw [hsplit]
    _ = (c.reverse.dropWhile (fun a => a == 0)).reverse
          ++ (c.reverse.takeWhile (fun a => a == 0)).reverse := by
          rw [List.reverse_append]
    _ = _ := by
          congr 1
          rw [hzero]
          simp only [List.reverse_replicate, List.length_replicate]
          congr 1
          have hlen : c.reverse.length =
              (c.reverse.takeWhile (fun a => a == 0)).length
                + (c.reverse.dropWhile (fun a => a == 0)).length := by
            conv_lhs => rw [← hsplit]
            rw [List.length_append]
          simp only [List.length_reverse] at hlen ⊢
          omega

theorem eval_nil (x : ℚ) : eval [] x = 0 := rfl

theorem eval_cons (a : ℚ) (t : List ℚ) (x : ℚ) :
    eval (a :: t) x = x * eval t x + a := rfl

theorem eval_replicate_zero (k : ℕ) (x : ℚ) :
    eval (List.replicate k 0) x = 0 := by
  induction k with
  | zero => rfl
  | succ n ih => rw [List.replicate_succ, eval_cons, ih]; ring

theorem eval_append_replicate (l : List ℚ) (k : ℕ) (x : ℚ) :
    eval (l ++ List.replicate k 0) x = eval l x := by
  induction l with
  | nil => simpa using eval_replicate_zero k x
  | cons a t ih => rw [List.cons_append, eval_cons, eval_cons, ih]

theorem eval_truncate (c : List ℚ) (x : ℚ) :
    eval (truncate c) x = eval c x := by
  conv_rhs => rw [truncate_append c]
  rw [eval_append_replicate]

theorem eval_mkPoly (c : List ℚ) (x : ℚ) :
    eval (mkPoly c) x = eval c x :=
  eval_truncate c x

theorem eval_eq_sum (c : List ℚ) (x : ℚ) :
    eval c x = ∑ i ∈ Finset.range c.length, c.getD i 0 * x ^ i := by
  induction c with
  | nil => rfl
  | cons a t ih =>
      rw [eval_cons, ih, List.length_cons, Finset.sum_range_succ']
      simp only [List.getD_cons_succ, List.getD_cons_zero, pow_zero, mul_one,
        pow_succ]
      rw [Finset.mul_sum]
      congr 1
      apply Finset.sum_congr rfl
      intro i _
      ring

theorem getD_eq_zero_of_le {c : List ℚ} {i : ℕ} (h : c.length ≤ i) :
    c.getD i 0 = 0 := by
  rw [List.getD_eq_getElem?_getD, List.getElem?_eq_none (by omega)]
  rfl

/-- Evaluation as a sum padded out to any length at least the list's. -/
theorem eval_eq_sum_pad (c : List ℚ) (x : ℚ) {N : ℕ} (h : c.length ≤ N) :
    eval c x = ∑ i ∈ Finset.range N, c.getD i 0 * x ^ i := by
  rw [eval_eq_sum]
  apply Finset.sum_subset
  · intro i hi
    simp only [Finset.mem_range] at hi ⊢
    omega
  · intro i _ hi
    simp only [Finset.mem_range, not_lt] at hi
    rw [getD_eq_zero_of_le hi, zero_mul]

theorem getD_map_range (f : ℕ → ℚ) (n i : ℕ) :
    ((List.range n).map f).getD i 0 = if i < n then f i else 0 := by
  by_cases h : i < n
  · rw [List.getD_eq_getElem?_getD, List.getElem?_map]
    simp [List.getElem?_range h, h]
  · rw [getD_eq_zero_of_le (by simpa using Nat.le_of_not_lt h)]
    simp [h]

theorem eval_map_range (f : ℕ → ℚ) (n : ℕ) (x : ℚ) :
    eval ((List.range n).map f) x = ∑ i ∈ Finset.range n, f i * x ^ i := by
  rw [eval_eq_sum]
  simp only [List.length_map, List.length_range]
  apply Finset.sum_congr rfl
  intro i hi
  rw [getD_map_range]
  simp only [Finset.mem_range] at hi
  simp [hi]

theorem eval_polyAdd (p q : List ℚ) (x : ℚ) :
    eval (polyAdd p q) x = eval p x + eval q x := by
  unfold polyAdd
  rw [eval_mkPoly, eval_map_range,
    eval_eq_sum_pad p x (le_max_left p.length q.length),
    eval_eq_sum_pad q x (le_max_right p.length q.length),
    ← Finset.sum_add_distrib]
  apply Finset.sum_congr rfl
  intro i _
  ring

theorem eval_polySub (p q : List ℚ) (x : ℚ) :
    eval (polySub p q) x = eval p x - eval q x := by
  unfold polySub
  rw [eval_mkPoly, eval_map_range,
    eval_eq_sum_pad p x (le_max_left p.length q.length),
    eval_eq_sum_pad q x (le_max_right p.length q.length),
    ← Finset.sum_sub_distrib]
  apply Finset.sum_congr rfl
  intro i _
  ring

theorem eval_polyNeg (p : List ℚ) (x : ℚ) :
    eval (polyNeg p) x = -eval p x := by
  unfold polyNeg
  rw [eval_mkPoly]
  induction p with
  | nil => simp [eval_nil]
  | cons a t ih => rw [List.map_cons, eval_cons, eval_cons, ih]; ring

theorem eval_polyScale (s : ℚ) (p : List ℚ) (x : ℚ) :
    eval (polyScale s p) x = s * eval p x := by
  unfold polyScale
  rw [eval_mkPoly]
  induction p with
  | nil => simp [eval_nil]
  | cons a t ih => rw [List.map_cons, eval_cons, eval_cons, ih]; ring

theorem eval_onePoly (x : ℚ) : eval onePoly x = 1 := by
  simp [onePoly, mkPoly, truncate, eval_cons, eval_nil]

theorem list_sum_map_range (f : ℕ → ℚ) (n : ℕ) :
    ((List.range n).map f).sum = ∑ i ∈ Finset.range n, f i := by
  induction n with
  | zero => rfl
  | succ m ih =>
      rw [List.range_succ, List.map_append, List.sum_append,
        Finset.sum_range_succ, ih]
      simp

theorem convEntry_eq_sum (p q : List ℚ) (n : ℕ) :
    convEntry p q n = ∑ i ∈ Finset.range (n + 1), p.getD i 0 * q.getD (n - i) 0 := by
  unfold convEntry
  rw [list_sum_map_range]

theorem eval_polyMul (p q : List ℚ) (x : ℚ) :
    eval (polyMul p q) x = eval p x * eval q x := by
  unfold polyMul
  by_cases hp : p.length = 0
  · have : p = [] := List.length_eq_zero.mp hp
    simp [this, eval_nil]
  by_cases hq : q.length = 0
  · have : q = [] := List.length_eq_zero.mp hq
    simp [this, eval_nil]
  rw [if_neg (by tauto), eval_mkPoly, eval_map_range]
  have ha : 1 ≤ p.length := Nat.one_le_iff_ne_zero.mpr hp
  have hb : 1 ≤ q.length := Nat.one_le_iff_ne_zero.mpr hq
  set N := p.length + q.length - 1 with hN
  have key := Finset.sum_range_diag_flip N
    (fun i j => p.getD i 0 * q.getD j 0 * x ^ (i + j))
  have hL : (∑ n ∈ Finset.range N, convEntry p q n * x ^ n)
      = ∑ m ∈ Finset.range N, ∑ k ∈ Finset.range (m + 1),
          p.getD k 0 * q.getD (m - k) 0 * x ^ (k + (m - k)) := by
    apply Finset.sum_congr rfl
    intro m _
    rw [convEntry_eq_sum, Finset.sum_mul]
    apply Finset.sum_congr rfl
    intro k hk
    simp only [Finset.mem_range] at hk
    have : k + (m - k) = m := by omega
    rw [this]
  rw [hL, key]
  have hR : (∑ m ∈ Finset.range N, ∑ k ∈ Finset.range (N - m),
      p.getD m 0 * q.getD k 0 * x ^ (m + k))
      = ∑ m ∈ Finset.range N, p.getD m 0 * x ^ m * eval q x := by
    apply Finset.sum_congr rfl
    intro m hm
    simp only [Finset.mem_range] at hm
    by_cases hma : m < p.length
    · have hbN : q.length ≤ N - m := by omega
      rw [eval_eq_sum_pad q x hbN, Finset.mul_sum]
      apply Finset.sum_congr rfl
      intro k _
      ring
    · rw [getD_eq_zero_of_le (Nat.le_of_not_lt hma)]
      simp
  rw [hR, ← Finset.sum_mul, ← eval_eq_sum_pad p x (by omega)]

theorem toPoly_eval (c : List ℚ) (x : ℚ) :
    (toPoly c).eval x = eval c x := by
  induction c with
  | nil => simp [toPoly, eval_nil]
  | cons a t ih =>
      simp only [toPoly, List.foldr_cons] at *
      rw [eval_cons, Polynomial.eval_add, Polynomial.eval_C,
        Polynomial.eval_mul, Polynomial.eval_X, ih]
      ring

theorem toPoly_coeff (c : List ℚ) (n : ℕ) :
    (toPoly c).coeff n = c.getD n 0 := by
  induction c generalizing n with
  | nil => simp [toPoly]
  | cons a t ih =>
      simp only [toPoly, List.foldr_cons] at *
      cases n with
      | zero =>
          rw [Polynomial.coeff_add, Polynomial.coeff_C,
            Polynomial.coeff_X_mul_zero]
          simp
      | succ m =>
          rw [Polynomial.coeff_add, Polynomial.coeff_C,
            Polynomial.coeff_X_mul, ih]
          simp

theorem canon_getLast_ne_zero {c : List ℚ} (hc : Canon c) (h : c ≠ []) :
    c.getD (c.length - 1) 0 ≠ 0 := by
  unfold Canon at hc
  intro h0
  apply hc
  rw [List.getLast?_eq_getLast c h, ← h0]
  rw [List.getD_eq_getElem?_getD, List.getLast_eq_getElem]
  rw [List.getElem?_eq_getElem (by
    have := List.length_pos.mpr h
    omega)]
  rfl

theorem canon_eq_nil_of_getD {c : List ℚ} (hc : Canon c)
    (h : ∀ n, c.getD n 0 = 0) : c = [] := by
  by_contra hne
  exact canon_getLast_ne_zero hc hne (h (c.length - 1))

theorem getD_ext_canon {c d : List ℚ} (hc : Canon c) (hd : Canon d)
    (h : ∀ n, c.getD n 0 = d.getD n 0) : c = d := by
  induction c generalizing d with
  | nil =>
      symm
      apply canon_eq_nil_of_getD hd
      intro n
      rw [← h n]
      rfl
  | cons a t ih =>
      cases d with
      | nil =>
          exfalso
          have : a :: t = [] := canon_eq_nil_of_getD hc (fun n => by
            rw [h n]; rfl)
          simp at this
      | cons b u =>
          have h0 : a = b := by simpa using h 0
          have ht : Canon t := by
            unfold Canon at hc ⊢
            intro h1
            cases t with
            | nil => simp at h1
            | cons a2 t2 => rw [← List.getLast?_cons_cons (a := a)] at h1; exact hc h1
          have hu : Canon u := by
            unfold Canon at hd ⊢
            intro h1
            cases u with
            | nil => simp at h1
            | cons b2 u2 => rw [← List.getLast?_cons_cons (a := b)] at h1; exact hd h1
          have := ih ht hu (fun n => by simpa using h (n + 1))
          rw [h0, this]

/-- The central extensionality tool: two canonical coefficient lists
with the same evaluation function are equal (ℚ is an infinite integral
domain, so a polynomial function determines its coefficients). -/
theorem canon_ext {c d : List ℚ} (hc : Canon c) (hd : Canon d)
    (h : ∀ x, eval c x = eval d x) : c = d := by
  have hpq : toPoly c = toPoly d := by
    apply Polynomial.funext
    intro r
    rw [toPoly_eval, toPoly_eval, h]
  apply getD_ext_canon hc hd
  intro n
  rw [← toPoly_coeff, ← toPoly_coeff, hpq]

theorem canon_nil : Canon ([] : List ℚ) := by
  simp [Canon]

theorem canon_mkPoly (c : List ℚ) : Canon (mkPoly c) :=
  truncate_canon c

theorem canon_polyMul (p q : List ℚ) : Canon (polyMul p q) := by
  unfold polyMul
  by_cases h : p.length = 0 ∨ q.length = 0
  · rw [if_pos h]; exact canon_nil
  · rw [if_neg h]; exact canon_mkPoly _

theorem canon_polyAdd (p q : List ℚ) : Canon (polyAdd p q) :=
  canon_mkPoly _

theorem canon_onePoly : Canon onePoly :=
  canon_mkPoly _

theorem canon_powLoop (e : ℕ) (sq pr : List ℚ) (hpr : Canon pr) :
    Canon (powLoop sq pr e) := by
  induction e using Nat.strong_induction_on generalizing sq pr with
  | _ e ih =>
      rw [powLoop]
      have h2 : Canon (if e % 2 = 1 then polyMul pr sq else pr) := by
        split
        · exact canon_polyMul _ _
        · exact hpr
      split
      · exact h2
      · next h =>
          exact ih (e / 2) (by omega) _ _ h2

theorem canon_powNat (p : List ℚ) (k : ℕ) (hp : Canon p) :
    Canon (powNat p k) := by
  rw [powNat]
  split
  · exact canon_onePoly
  · split
    · exact hp
    · exact canon_powLoop _ _ _ canon_onePoly

theorem canon_naivePow (p : List ℚ) (k : ℕ) : Canon (naivePow p k) := by
  cases k with
  | zero => exact canon_onePoly
  | succ m => exact canon_polyMul _ _

theorem canon_compose (f g : List ℚ) : Canon (compose f g) := by
  unfold compose
  suffices h : ∀ (l : List ℕ) (acc : List ℚ × List ℚ), Canon acc.1 →
      Canon ((l.foldl
        (fun (acc : List ℚ × List ℚ) i =>
          let gpow := if 0 < i then polyMul acc.2 g else acc.2
          (polyAdd acc.1 (polyScale (f.getD i 0) gpow), gpow)) acc).1) by
    exact h _ _ canon_nil
  intro l
  induction l with
  | nil => intro acc hacc; exact hacc
  | cons a t ih =>
      intro acc _
      exact ih _ (canon_polyAdd _ _)

theorem any_x_eq_iff (s : List Coefficient) (x : ℚ) :
    s.any (fun c => c.x == x) = true ↔ ∃ c ∈ s, c.x = x := by
  simp [List.any_eq_true]

theorem any_fst_eq_iff (ps : List (ℚ × ℚ)) (x : ℚ) :
    ps.any (fun p => p.1 == x) = true ↔ ∃ p ∈ ps, p.1 = x := by
  simp [List.any_eq_true]

/-- C3: `insert` on an already-present x-coordinate returns `false` and
leaves the state unchanged, for both `Interpolator` lineages; `insert`
on a fresh x-coordinate returns `true`. -/
theorem insert_duplicate_rejected
    (s : List Coefficient) (ps : List (ℚ × ℚ)) (x y : ℚ) :
    ((∃ c ∈ s, c.x = x) → insert1 s x y = (false, s)) ∧
    ((∀ c ∈ s, c.x ≠ x) → (insert1 s x y).1 = true) ∧
    ((∃ p ∈ ps, p.1 = x) → insert2 ps x y = (false, ps)) ∧
    ((∀ p ∈ ps, p.1 ≠ x) → insert2 ps x y = (true, ps ++ [(x, y)])) := by
  refine ⟨?_, ?_, ?_, ?_⟩
  · intro h
    rw [insert1, if_pos ((any_x_eq_iff s x).mpr h)]
  · intro h
    rw [insert1, if_neg (fun hc => ?_)]
    obtain ⟨c, hmem, hcx⟩ := (any_x_eq_iff s x).mp hc
    exact h c hmem hcx
  · intro h
    rw [insert2, if_pos ((any_fst_eq_iff ps x).mpr h)]
  · intro h
    rw [insert2, if_neg (fun hc => ?_)]
    obtain ⟨p, hmem, hpx⟩ := (any_fst_eq_iff ps x).mp hc
    exact h p hmem hpx

/-- Witness for C3 at a concrete state: the record list holding x = 1
rejects a second x = 1 unchanged and accepts x = 2. -/
theorem insert_duplicate_rejected_witness :
    insert1 [⟨1, 7, [], 1⟩] 1 9 = (false, [⟨1, 7, [], 1⟩]) ∧
    (insert1 [⟨1, 7, [], 1⟩] 2 5).1 = true ∧
    insert2 [(1, 7)] 1 9 = (false, [(1, 7)]) ∧
    insert2 [(1, 7)] 2 5 = (true, [(1, 7), (2, 5)]) := by
  obtain ⟨h1, h2, h3, h4⟩ :=
    insert_duplicate_rejected [⟨1, 7, [], 1⟩] [(1, 7)] 1 9
  obtain ⟨_, h2', _, h4'⟩ :=
    insert_duplicate_rejected [⟨1, 7, [], 1⟩] [(1, 7)] 2 5
  exact ⟨h1 (by decide), h2' (by decide), h3 (by decide), h4' (by decide)⟩

/-- C7: `pow` with a negative exponent signals the `std::range_error`
(modelled as `Except.error` with its message) and never returns a value,
so in particular it does not clamp the exponent to zero or one. -/
theorem pow_negative_error (p : List ℚ) (k : ℤ) (h : k < 0) :
    powChecked p k = Except.error "Cannot raise Polynomial to a negative power." ∧
    ∀ q : List ℚ, powChecked p k ≠ Except.ok q := by
  constructor
  · rw [powChecked, if_pos h]
  · intro q hq
    rw [powChecked, if_pos h] at hq
    exact Except.noConfusion hq

/-- Witness for C7 at `p = [1, 2]`, `k = -1`. -/
theorem pow_negative_error_witness :
    powChecked [1, 2] (-1) = Except.error "Cannot raise Polynomial to a negative power." ∧
    ∀ q : List ℚ, powChecked [1, 2] (-1) ≠ Except.ok q :=
  pow_negative_error [1, 2] (-1) (by decide)

/-- C4: every polynomial produced by construction or by any of the
arithmetic operations is canonical (no trailing zero coefficient, the
empty list being the unique zero); in particular constructing from
`[3, 7, 0, 0]` yields `[3, 7]`. -/
theorem polynomial_canonical_form (c p q : List ℚ) (s C : ℚ) (k : ℕ) :
    Canon (mkPoly c) ∧
    mkPoly [3, 7, 0, 0] = [3, 7] ∧
    mkPoly [] = [] ∧
    Canon (polyNeg p) ∧
    Canon (polyScale s p) ∧
    Canon (polyAdd p q) ∧
    Canon (polySub p q) ∧
    Canon (polyMul p q) ∧
    (Canon p → Canon (powNat p k)) ∧
    Canon (derivative p) ∧
    Canon (integral p C) ∧
    Canon (compose p q) ∧
    (Canon p → (∀ x, eval p x = 0) → p = []) :=
  ⟨canon_mkPoly c, by decide, rfl, canon_mkPoly _, canon_mkPoly _,
   canon_polyAdd p q, canon_mkPoly _, canon_polyMul p q,
   canon_powNat p k, canon_mkPoly _, canon_mkPoly _, canon_compose p q,
   fun hp h => canon_ext hp canon_nil (fun x => by rw [h x, eval_nil])⟩

/-- Witness for C4 at concrete inputs, including the conditional
conjuncts at the canonical base `[1, 2]`. -/
theorem polynomial_canonical_form_witness :
    Canon (mkPoly [3, 7, 0, 0]) ∧ Canon (powNat [1, 2] 3) ∧
    mkPoly [3, 7, 0, 0] = [3, 7] := by
  obtain ⟨h1, h2, -, -, -, -, -, -, h9, -⟩ :=
    polynomial_canonical_form [3, 7, 0, 0] [1, 2] [5] 4 6 3
  exact ⟨h1, h9 (by decide), h2⟩

theorem integAux_append (l : List ℚ) (a : ℚ) (i : ℕ) :
    integAux (l ++ [a]) i = integAux l i ++ [a / ((i + l.length : ℕ) : ℚ)] := by
  induction l generalizing i with
  | nil => simp [integAux]
  | cons b t ih =>
      rw [List.cons_append, integAux, integAux, ih]
      have h : i + 1 + t.length = i + (b :: t).length := by
        simp only [List.length_cons]
        omega
      rw [List.cons_append, h]

theorem derivAux_integAux (c : List ℚ) (i : ℕ) (hi : 0 < i) :
    derivAux (integAux c i) i = c := by
  induction c generalizing i with
  | nil => rfl
  | cons a t ih =>
      rw [integAux, derivAux, ih (i + 1) (by omega)]
      have : (i : ℚ) ≠ 0 := by
        exact_mod_cast Nat.pos_iff_ne_zero.mp hi
      rw [mul_div_cancel₀ a this]

/-- C8: the derivative of the indefinite integral reproduces the original
polynomial exactly, for every arbitrary constant, including the zero
polynomial. -/
theorem derivative_integral_inverse (f : List ℚ) (C : ℚ) (hf : Canon f) :
    derivative (integral f C) = f := by
  rcases List.eq_nil_or_concat f with hnil | ⟨L, a, hla⟩
  on_goal 2 => rw [List.concat_eq_append] at hla
  · subst hnil
    have h1 : mkPoly [C] = [] ∨ mkPoly [C] = [C] := by
      unfold mkPoly truncate
      by_cases hC : C = 0
      · left; simp [hC, List.dropWhile_cons]
      · right; simp [List.dropWhile_cons, hC]
    have h2 : integral [] C = mkPoly [C] := rfl
    rcases h1 with h | h <;>
      · rw [derivative, h2, h]
        rfl
  · subst hla
    have ha : a ≠ 0 := by
      intro h0
      apply hf
      rw [List.getLast?_concat, h0]
    have hcanon : Canon (C :: integAux (L ++ [a]) 1) := by
      unfold Canon
      rw [integAux_append, ← List.cons_append, List.getLast?_concat]
      intro h
      have hdiv : a / ((1 + L.length : ℕ) : ℚ) = 0 := by
        exact_mod_cast Option.some.inj h
      have hden : ((1 + L.length : ℕ) : ℚ) ≠ 0 :=
        Nat.cast_ne_zero.mpr (by omega)
      exact ha ((div_eq_zero_iff.mp hdiv).resolve_right hden)
    have h3 : integral (L ++ [a]) C = C :: integAux (L ++ [a]) 1 := by
      unfold integral mkPoly
      exact truncate_eq_self hcanon
    rw [h3, derivative, List.tail_cons,
      derivAux_integAux _ 1 (by omega)]
    exact truncate_eq_self hf

/-- Witness for C8 at `f = [3, 5, 7]`, `C = 11`. -/
theorem derivative_integral_inverse_witness :
    derivative (integral [3, 5, 7] 11) = [3, 5, 7] :=
  derivative_integral_inverse [3, 5, 7] 11 (by decide)

theorem compose_loop (f g : List ℚ) (x : ℚ) (m : ℕ) :
    eval ((List.range m).foldl
      (fun (acc : List ℚ × List ℚ) i =>
        let gpow := if 0 < i then polyMul acc.2 g else acc.2
        (polyAdd acc.1 (polyScale (f.getD i 0) gpow), gpow))
      ([], onePoly)).1 x
      = (∑ i ∈ Finset.range m, f.getD i 0 * (eval g x) ^ i) ∧
    eval ((List.range m).foldl
      (fun (acc : List ℚ × List ℚ) i =>
        let gpow := if 0 < i then polyMul acc.2 g else acc.2
        (polyAdd acc.1 (polyScale (f.getD i 0) gpow), gpow))
      ([], onePoly)).2 x
      = (eval g x) ^ (m - 1) := by
  induction m with
  | zero =>
      constructor
      · simp [eval_nil]
      · simpa using eval_onePoly x
  | succ m ih =>
      rw [List.range_succ, List.foldl_append, List.foldl_cons, List.foldl_nil]
      obtain ⟨ih1, ih2⟩ := ih
      have hgpow : eval (if 0 < m
          then polyMul ((List.range m).foldl
            (fun (acc : List ℚ × List ℚ) i =>
              let gpow := if 0 < i then polyMul acc.2 g else acc.2
              (polyAdd acc.1 (polyScale (f.getD i 0) gpow), gpow))
            ([], onePoly)).2 g
          else ((List.range m).foldl
            (fun (acc : List ℚ × List ℚ) i =>
              let gpow := if 0 < i then polyMul acc.2 g else acc.2
              (polyAdd acc.1 (polyScale (f.getD i 0) gpow), gpow))
            ([], onePoly)).2) x = (eval g x) ^ m := by
        split
        · next hm =>
            rw [eval_polyMul, ih2, ← pow_succ]
            congr 1
            omega
        · next hm =>
            rw [ih2]
            congr 1
            omega
      constructor
      · show eval (polyAdd _ (polyScale _ _)) x = _
        rw [eval_polyAdd, eval_polyScale, ih1, hgpow, Finset.sum_range_succ]
      · show eval (if 0 < m then _ else _) x = _
        rw [hgpow]
        simp

/-- C9: the composed polynomial satisfies
`compose(f, g)(x) = f(g(x))` for all inputs, and composing
`[0, 2, 5]` with `[7, -3]` yields `[259, -216, 45]`. -/
theorem compose_correct (f g : List ℚ) (x : ℚ) :
    eval (compose f g) x = eval f (eval g x) ∧
    compose [0, 2, 5] [7, -3] = [259, -216, 45] := by
  constructor
  · unfold compose
    rw [(compose_loop f g x f.length).1, eval_eq_sum f (eval g x)]
  · norm_num [compose, polyAdd, polyScale, polyMul, mkPoly, truncate,
      convEntry, onePoly, List.range_succ, -List.length_eq_zero]

theorem getLast?_map_range (f : ℕ → ℚ) (n : ℕ) :
    ((List.range (n + 1)).map f).getLast? = some (f n) := by
  rw [List.range_succ, List.map_append, List.map_cons, List.map_nil,
    List.getLast?_concat]

theorem convEntry_last {p q : List ℚ} (hpne : p ≠ []) (hqne : q ≠ []) :
    convEntry p q (p.length + q.length - 2)
      = p.getD (p.length - 1) 0 * q.getD (q.length - 1) 0 := by
  have hp1 : 1 ≤ p.length := List.length_pos.mpr hpne
  have hq1 : 1 ≤ q.length := List.length_pos.mpr hqne
  rw [convEntry_eq_sum]
  rw [Finset.sum_eq_single_of_mem (p.length - 1)
    (Finset.mem_range.mpr (by omega))]
  · have h2 : p.length + q.length - 2 - (p.length - 1) = q.length - 1 := by
      omega
    rw [h2]
  · intro i _ hne
    by_cases hi : i < p.length
    · have : q.length ≤ p.length + q.length - 2 - i := by omega
      rw [getD_eq_zero_of_le this, mul_zero]
    · rw [getD_eq_zero_of_le (by omega), zero_mul]

/-- C5: polynomial multiplication is the convolution of the coefficient
sequences: for canonical nonempty operands the result has length
`a + b - 1` and entry `n` equal to the accumulated sum of
`left[i] * right[j]` over `i + j = n`; and the product with the zero
polynomial is the zero polynomial in either operand order. -/
theorem mul_is_convolution (p q : List ℚ) (hp : Canon p) (hq : Canon q)
    (hpne : p ≠ []) (hqne : q ≠ []) :
    (polyMul p q).length = p.length + q.length - 1 ∧
    (∀ n, (polyMul p q).getD n 0
        = ∑ i ∈ Finset.range (n + 1), p.getD i 0 * q.getD (n - i) 0) ∧
    (∀ r : List ℚ, polyMul r [] = [] ∧ polyMul [] r = []) := by
  have hp1 : 1 ≤ p.length := List.length_pos.mpr hpne
  have hq1 : 1 ≤ q.length := List.length_pos.mpr hqne
  have hcanon : Canon ((List.range (p.length + q.length - 1)).map (convEntry p q)) := by
    unfold Canon
    have h1 : p.length + q.length - 1 = (p.length + q.length - 2) + 1 := by omega
    rw [h1, getLast?_map_range, convEntry_last hpne hqne]
    intro h
    have := Option.some.inj h
    exact mul_ne_zero (canon_getLast_ne_zero hp hpne)
      (canon_getLast_ne_zero hq hqne) this
  have hmul : polyMul p q
      = (List.range (p.length + q.length - 1)).map (convEntry p q) := by
    unfold polyMul
    rw [if_neg (fun h => by rcases h with h | h <;> omega), mkPoly,
      truncate_eq_self hcanon]
  refine ⟨?_, ?_, ?_⟩
  · rw [hmul, List.length_map, List.length_range]
  · intro n
    rw [hmul, getD_map_range]
    by_cases hn : n < p.length + q.length - 1
    · rw [if_pos hn, convEntry_eq_sum]
    · rw [if_neg hn]
      symm
      apply Finset.sum_eq_zero
      intro i _
      by_cases hi : i < p.length
      · rw [@getD_eq_zero_of_le q (n - i) (by omega), mul_zero]
      · rw [getD_eq_zero_of_le (Nat.le_of_not_lt hi), zero_mul]
  · intro r
    constructor
    · unfold polyMul
      rw [if_pos (by simp)]
    · unfold polyMul
      rw [if_pos (by simp)]

/-- Witness for C5 at `p = [-1, 1]`, `q = [-2, 1]` (i.e.
`(x-1)(x-2) = x^2 - 3x + 2`). -/
theorem mul_is_convolution_witness :
    (polyMul [-1, 1] [-2, 1] : List ℚ).length = 3 ∧
    (polyMul [-1, 1] [-2, 1] : List ℚ).getD 1 0
      = ∑ i ∈ Finset.range 2, ([-1, 1] : List ℚ).getD i 0 * ([-2, 1] : List ℚ).getD (1 - i) 0 ∧
    polyMul ([] : List ℚ) [5, 3] = [] := by
  obtain ⟨h1, h2, h3⟩ := mul_is_convolution [-1, 1] [-2, 1]
    (by decide) (by decide) (by decide) (by decide)
  exact ⟨h1, h2 1, (h3 [5, 3]).2⟩

theorem eval_powLoop (e : ℕ) (sq pr : List ℚ) (x : ℚ) :
    eval (powLoop sq pr e) x = eval pr x * (eval sq x) ^ e := by
  induction e using Nat.strong_induction_on generalizing sq pr with
  | _ e ih =>
      rw [powLoop]
      have h2 : eval (if e % 2 = 1 then polyMul pr sq else pr) x
          = eval pr x * (eval sq x) ^ (e % 2) := by
        split
        · next h => rw [eval_polyMul, h, pow_one]
        · next h =>
            have h0 : e % 2 = 0 := by omega
            rw [h0, pow_zero, mul_one]
      split
      · next h =>
          rw [h2]
          have : e % 2 = e := by omega
          rw [this]
      · next h =>
          rw [ih (e / 2) (by omega), h2, eval_polyMul]
          have hsplit : e = e % 2 + 2 * (e / 2) := by omega
          calc eval pr x * eval sq x ^ (e % 2) *
                (eval sq x * eval sq x) ^ (e / 2)
              = eval pr x * (eval sq x ^ (e % 2) *
                (eval sq x ^ 2) ^ (e / 2)) := by ring
            _ = eval pr x * eval sq x ^ (e % 2 + 2 * (e / 2)) := by
                rw [← pow_mul, ← pow_add]
            _ = eval pr x * eval sq x ^ e := by rw [← hsplit]

theorem eval_powNat (p : List ℚ) (k : ℕ) (x : ℚ) :
    eval (powNat p k) x = (eval p x) ^ k := by
  rw [powNat]
  split
  · next h => rw [h, pow_zero, eval_onePoly]
  · split
    · next h => rw [h, pow_one]
    · rw [eval_powLoop, eval_onePoly, one_mul]

theorem eval_naivePow (p : List ℚ) (k : ℕ) (x : ℚ) :
    eval (naivePow p k) x = (eval p x) ^ k := by
  induction k with
  | zero => rw [naivePow, pow_zero, eval_onePoly]
  | succ m ih => rw [naivePow, eval_polyMul, ih, pow_succ]

/-- C6: the square-and-multiply `pow` agrees with the naive `k`-fold
repeated product (empty product `[1]`) for every canonical base and
every exponent `k ≥ 0`; in particular `pow(0)` is `[1]` for every base,
including the zero polynomial. -/
theorem pow_eq_naive (p : List ℚ) (k : ℕ) (hp : Canon p) :
    powNat p k = naivePow p k ∧ (∀ q : List ℚ, powNat q 0 = [1]) := by
  constructor
  · apply canon_ext (canon_powNat p k hp) (canon_naivePow p k)
    intro x
    rw [eval_powNat, eval_naivePow]
  · intro q
    rfl

/-- Witness for C6 at `p = [2, 1]`, `k = 3`, checking the agreement and
the `pow(0)` convention on the zero polynomial. -/
theorem pow_eq_naive_witness :
    powNat [2, 1] 3 = naivePow [2, 1] 3 ∧ powNat ([] : List ℚ) 0 = [1] := by
  obtain ⟨h1, h2⟩ := pow_eq_naive [2, 1] 3 (by decide)
  exact ⟨h1, h2 []⟩

theorem foldl_add_map {α : Type} (f : α → ℚ) (l : List α) :
    ∀ (z : ℚ), l.foldl (fun acc a => acc + f a) z = z + (l.map f).sum := by
  induction l with
  | nil => intro z; simp
  | cons a t ih =>
      intro z
      rw [List.foldl_cons, ih, List.map_cons, List.sum_cons]
      ring

theorem foldl_mul_map {α : Type} (f : α → ℚ) (l : List α) :
    ∀ (z : ℚ), l.foldl (fun acc a => acc * f a) z = z * (l.map f).prod := by
  induction l with
  | nil => intro z; simp
  | cons a t ih =>
      intro z
      rw [List.foldl_cons, ih, List.map_cons, List.prod_cons]
      ring

theorem insert1_fold_spec (x : ℚ) (l : List Coefficient) :
    ∀ (e : Coefficient),
    l.foldl (fun d c =>
      { d with diffs := d.diffs ++ [c.x], denom := d.denom * (x - c.x) }) e
      = { e with diffs := e.diffs ++ l.map (fun c => c.x),
                 denom := e.denom * (l.map (fun c => x - c.x)).prod } := by
  induction l with
  | nil => intro e; simp
  | cons a t ih =>
      intro e
      rw [List.foldl_cons, ih]
      simp [mul_assoc]

theorem insert1_formula (s : List Coefficient) (x y : ℚ)
    (hx : ∀ c ∈ s, c.x ≠ x) :
    insert1 s x y
      = (true, (s.map (fun c =>
            (⟨c.x, c.y, c.diffs ++ [x], c.denom * (c.x - x)⟩ : Coefficient)))
          ++ [(⟨x, y, s.map (fun c => c.x),
               (s.map (fun c => x - c.x)).prod⟩ : Coefficient)]) := by
  have hguard : ¬ (s.any (fun c => c.x == x) = true) := by
    rw [any_x_eq_iff]
    rintro ⟨c, hc, hcx⟩
    exact hx c hc hcx
  rw [insert1, if_neg hguard]
  simp only [insert1_fold_spec, List.map_map]
  simp [Function.comp_def]

/-- Every successful `insert` preserves the record invariant and appends
the new point at the end. -/
theorem insert1_preserves (s : List Coefficient) (x y : ℚ)
    (hinv : InvRecords s) (hx : ∀ c ∈ s, c.x ≠ x) :
    (insert1 s x y).1 = true ∧
    InvRecords (insert1 s x y).2 ∧
    (insert1 s x y).2.map (fun c => c.x) = s.map (fun c => c.x) ++ [x] ∧
    (insert1 s x y).2.map (fun c => (c.x, c.y))
      = s.map (fun c => (c.x, c.y)) ++ [(x, y)] := by
  obtain ⟨hnd, hrec⟩ := hinv
  have hxs : x ∉ s.map (fun c => c.x) := by
    intro hmem
    obtain ⟨c, hc, hcx⟩ := List.mem_map.mp hmem
    exact hx c hc hcx
  rw [insert1_formula s x y hx]
  have hmapx : (s.map (fun c =>
      (⟨c.x, c.y, c.diffs ++ [x], c.denom * (c.x - x)⟩ : Coefficient))).map
        (fun c => c.x)
      = s.map (fun c => c.x) := by
    rw [List.map_map]
    rfl
  refine ⟨rfl, ⟨?_, ?_⟩, ?_, ?_⟩
  · rw [List.map_append, hmapx]
    rw [List.nodup_append]
    refine ⟨hnd, by simp, ?_⟩
    intro a ha
    simp only [List.map_cons, List.map_nil, List.mem_singleton]
    intro hax
    rw [hax] at ha
    exact hxs ha
  · intro c2 hc2
    have hxs2 : ((s.map (fun c =>
        (⟨c.x, c.y, c.diffs ++ [x], c.denom * (c.x - x)⟩ : Coefficient)))
          ++ [(⟨x, y, s.map (fun c => c.x),
               (s.map (fun c => x - c.x)).prod⟩ : Coefficient)]).map
            (fun c => c.x)
        = s.map (fun c => c.x) ++ [x] := by
      rw [List.map_append, hmapx]
      rfl
    rw [hxs2]
    rcases List.mem_append.mp hc2 with hmem | hmem
    · obtain ⟨c, hc, rfl⟩ := List.mem_map.mp hmem
      obtain ⟨hdiffs, hdenom⟩ := hrec c hc
      have hcx : c.x ∈ s.map (fun c => c.x) := List.mem_map_of_mem _ hc
      constructor
      · show c.diffs ++ [x] = ((s.map (fun c => c.x)) ++ [x]).erase c.x
        rw [List.erase_append_left _ hcx, hdiffs]
      · show c.denom * (c.x - x)
          = ((((s.map (fun c => c.x)) ++ [x]).erase c.x).map
              (fun t => c.x - t)).prod
        rw [List.erase_append_left _ hcx, List.map_append, List.prod_append,
          hdenom]
        simp
    · rw [List.mem_singleton] at hmem
      subst hmem
      constructor
      · show s.map (fun c => c.x) = ((s.map (fun c => c.x)) ++ [x]).erase x
        rw [List.erase_append_right _ hxs, List.erase_cons_head,
          List.append_nil]
      · show (s.map (fun c => x - c.x)).prod
          = ((((s.map (fun c => c.x)) ++ [x]).erase x).map
              (fun t => x - t)).prod
        rw [List.erase_append_right _ hxs, List.erase_cons_head,
          List.append_nil, List.map_map]
        rfl
  · rw [List.map_append, hmapx]
    rfl
  · rw [List.map_append, List.map_map]
    rfl

theorem inv_nil : InvRecords [] :=
  ⟨by simp, by simp⟩

theorem insertAll1_loop (ps : List (ℚ × ℚ)) :
    ∀ (b : Bool) (s : List Coefficient),
    InvRecords s →
    (ps.map Prod.fst).Nodup →
    (∀ p ∈ ps, p.1 ∉ s.map (fun c => c.x)) →
    (ps.foldl (fun acc p =>
        let r := insert1 acc.2 p.1 p.2
        (acc.1 && r.1, r.2)) (b, s)).1 = b ∧
    InvRecords (ps.foldl (fun acc p =>
        let r := insert1 acc.2 p.1 p.2
        (acc.1 && r.1, r.2)) (b, s)).2 ∧
    (ps.foldl (fun acc p =>
        let r := insert1 acc.2 p.1 p.2
        (acc.1 && r.1, r.2)) (b, s)).2.map (fun c => (c.x, c.y))
      = s.map (fun c => (c.x, c.y)) ++ ps := by
  induction ps with
  | nil =>
      intro b s hinv _ _
      exact ⟨rfl, hinv, by simp⟩
  | cons p t ih =>
      intro b s hinv hnd hdis
      have hx : ∀ c ∈ s, c.x ≠ p.1 := by
        intro c hc hcx
        exact hdis p (List.mem_cons_self p t) (hcx ▸ List.mem_map_of_mem _ hc)
      obtain ⟨h1, h2, h3, h4⟩ := insert1_preserves s p.1 p.2 hinv hx
      rw [List.foldl_cons]
      rw [List.map_cons, List.nodup_cons] at hnd
      obtain ⟨hp1, hnd'⟩ := hnd
      have hdis' : ∀ q ∈ t, q.1 ∉ (insert1 s p.1 p.2).2.map (fun c => c.x) := by
        intro q hq
        rw [h3, List.mem_append]
        rintro (hmem | hmem)
        · exact hdis q (List.mem_cons_of_mem p hq) hmem
        · rw [List.mem_singleton] at hmem
          exact hp1 (hmem ▸ List.mem_map_of_mem Prod.fst hq)
      obtain ⟨g1, g2, g3⟩ :=
        ih (b && (insert1 s p.1 p.2).1) (insert1 s p.1 p.2).2 h2 hnd' hdis'
      refine ⟨?_, g2, ?_⟩
      · rw [g1, h1, Bool.and_true]
      · rw [g3, h4, List.append_assoc]
        simp

/-- After inserting a list of points with pairwise-distinct
x-coordinates into an empty record-based `Interpolator`, every insert
succeeded, the record invariant holds, and the stored points are
exactly the inserted ones in order. -/
theorem insertAll1_spec (ps : List (ℚ × ℚ)) (hnd : (ps.map Prod.fst).Nodup) :
    (insertAll1 ps).1 = true ∧ InvRecords (insertAll1 ps).2 ∧
    (insertAll1 ps).2.map (fun c => (c.x, c.y)) = ps := by
  have h := insertAll1_loop ps true [] inv_nil hnd (by simp)
  rw [List.map_nil, List.nil_append] at h
  exact h

theorem term_eq_one (s : List Coefficient) (hinv : InvRecords s)
    (c : Coefficient) (hc : c ∈ s) : term c c.x = 1 := by
  obtain ⟨hnd, hrec⟩ := hinv
  obtain ⟨hdiffs, hdenom⟩ := hrec c hc
  unfold term
  rw [foldl_mul_map (fun d => c.x - d) c.diffs 1, one_mul, hdiffs, hdenom]
  apply div_self
  apply List.prod_ne_zero
  intro h0
  obtain ⟨t, ht, hsub⟩ := List.mem_map.mp h0
  have : t = c.x := by linarith [sub_eq_zero.mp hsub]
  rw [this] at ht
  exact ((List.Nodup.mem_erase_iff hnd).mp ht).1 rfl

theorem term_eq_zero (s : List Coefficient) (hinv : InvRecords s)
    (c : Coefficient) (hc : c ∈ s) (z : ℚ)
    (hz : z ∈ s.map (fun c => c.x)) (hne : z ≠ c.x) : term c z = 0 := by
  obtain ⟨hnd, hrec⟩ := hinv
  obtain ⟨hdiffs, hdenom⟩ := hrec c hc
  unfold term
  rw [foldl_mul_map (fun d => z - d) c.diffs 1, one_mul, hdiffs]
  have hz' : z ∈ (s.map (fun c => c.x)).erase c.x :=
    (List.Nodup.mem_erase_iff hnd).mpr ⟨hne, hz⟩
  have h0 : (0 : ℚ) ∈ ((s.map (fun c => c.x)).erase c.x).map
      (fun d => z - d) :=
    List.mem_map.mpr ⟨z, hz', sub_self z⟩
  rw [List.prod_eq_zero h0, zero_div]

theorem sum_single_y (s : List Coefficient) :
    ∀ (e : Coefficient), (s.map (fun c => c.x)).Nodup → e ∈ s →
    (s.map (fun c => if c.x = e.x then c.y else 0)).sum = e.y := by
  induction s with
  | nil =>
      intro e _ h
      simp at h
  | cons a t ih =>
      intro e hnd he
      rw [List.map_cons, List.nodup_cons] at hnd
      obtain ⟨hnm, hndt⟩ := hnd
      rw [List.map_cons, List.sum_cons]
      by_cases hx : a.x = e.x
      · have hea : e = a := by
          rcases List.mem_cons.mp he with h | hmem
          · exact h
          · exact absurd (hx ▸ List.mem_map_of_mem (fun c => c.x) hmem) hnm
        rw [if_pos hx, List.sum_eq_zero, add_zero, hea]
        intro q hq
        obtain ⟨c, hcm, hcq⟩ := List.mem_map.mp hq
        have hcx : c.x ≠ e.x := by
          intro h
          exact hnm (hx ▸ h ▸ List.mem_map_of_mem (fun c => c.x) hcm)
        rw [if_neg hcx] at hcq
        exact hcq.symm
      · rw [if_neg hx, zero_add]
        apply ih e hndt
        rcases List.mem_cons.mp he with h | hmem
        · exact absurd (h ▸ rfl) hx
        · exact hmem

/-- At each stored record's own x, `calc` returns that record's y. -/
theorem calc1_node (s : List Coefficient) (hinv : InvRecords s)
    (e : Coefficient) (he : e ∈ s) : calc1 s e.x = e.y := by
  unfold calc1
  rw [foldl_add_map (fun c => term c e.x * c.y) s 0, zero_add]
  have hmap : s.map (fun c => term c e.x * c.y)
      = s.map (fun c => if c.x = e.x then c.y else 0) := by
    apply List.map_congr_left
    intro c hc
    by_cases hx : c.x = e.x
    · rw [if_pos hx, ← hx, term_eq_one s hinv c hc, one_mul]
    · rw [if_neg hx,
        term_eq_zero s hinv c hc e.x (List.mem_map_of_mem _ he)
          (fun h => hx h.symm),
        zero_mul]
  rw [hmap]
  exact sum_single_y s e hinv.1 he

/-- C2: after any sequence of successful inserts, each record's root
list holds exactly the other records' x-coordinates, its denominator is
the product of `(x_j - x_k)` over the other records, and the basis term
evaluates to 1 at its own x and to 0 at every other stored x. -/
theorem lagrange_basis_invariant (ps : List (ℚ × ℚ))
    (hnd : (ps.map Prod.fst).Nodup) :
    (insertAll1 ps).1 = true ∧
    (∀ c ∈ (insertAll1 ps).2,
      c.diffs = ((insertAll1 ps).2.map (fun c => c.x)).erase c.x ∧
      c.denom = ((((insertAll1 ps).2.map (fun c => c.x)).erase c.x).map
        (fun t => c.x - t)).prod) ∧
    (∀ c ∈ (insertAll1 ps).2, term c c.x = 1) ∧
    (∀ c ∈ (insertAll1 ps).2, ∀ e ∈ (insertAll1 ps).2, e.x ≠ c.x →
      term c e.x = 0) := by
  obtain ⟨hok, hinv, -⟩ := insertAll1_spec ps hnd
  refine ⟨hok, hinv.2, ?_, ?_⟩
  · intro c hc
    exact term_eq_one _ hinv c hc
  · intro c hc e hemem hne
    exact term_eq_zero _ hinv c hc e.x (List.mem_map_of_mem _ hemem) hne

/-- Witness for C2 after inserting `(1, 7)` and `(2, -2)`. -/
theorem lagrange_basis_invariant_witness :
    (∀ c ∈ (insertAll1 [(1, 7), (2, -2)]).2, term c c.x = 1) ∧
    (∀ c ∈ (insertAll1 [(1, 7), (2, -2)]).2,
      ∀ e ∈ (insertAll1 [(1, 7), (2, -2)]).2, e.x ≠ c.x →
        term c e.x = 0) := by
  obtain ⟨-, -, h3, h4⟩ :=
    lagrange_basis_invariant [(1, 7), (2, -2)] (by decide)
  exact ⟨h3, h4⟩

theorem insertAll2_loop (ps : List (ℚ × ℚ)) :
    ∀ (b : Bool) (s : List (ℚ × ℚ)),
    (ps.map Prod.fst).Nodup →
    (∀ p ∈ ps, p.1 ∉ s.map Prod.fst) →
    ps.foldl (fun acc p =>
      let r := insert2 acc.2 p.1 p.2
      (acc.1 && r.1, r.2)) (b, s) = (b, s ++ ps) := by
  induction ps with
  | nil =>
      intro b s _ _
      simp
  | cons p t ih =>
      intro b s hnd hdis
      rw [List.map_cons, List.nodup_cons] at hnd
      obtain ⟨hp1, hnd'⟩ := hnd
      have hguard : ¬ (s.any (fun q => q.1 == p.1) = true) := by
        rw [any_fst_eq_iff]
        rintro ⟨q, hq, hq1⟩
        exact hdis p (List.mem_cons_self p t) (hq1 ▸ List.mem_map_of_mem _ hq)
      have hstep : insert2 s p.1 p.2 = (true, s ++ [p]) := by
        rw [insert2, if_neg hguard]
      rw [List.foldl_cons]
      show t.foldl _ (b && (insert2 s p.1 p.2).1, (insert2 s p.1 p.2).2) = _
      rw [hstep]
      have hdis' : ∀ q ∈ t, q.1 ∉ (s ++ [p]).map Prod.fst := by
        intro q hq
        rw [List.map_append, List.mem_append]
        rintro (hmem | hmem)
        · exact hdis q (List.mem_cons_of_mem p hq) hmem
        · simp only [List.map_cons, List.map_nil, List.mem_singleton] at hmem
          exact hp1 (hmem ▸ List.mem_map_of_mem Prod.fst hq)
      rw [ih (b && true) (s ++ [p]) hnd' hdis', Bool.and_true,
        List.append_assoc]
      rfl

/-- With pairwise-distinct x-coordinates every insert into the
point-list `Interpolator` succeeds and the state is the point list. -/
theorem insertAll2_spec (ps : List (ℚ × ℚ))
    (hnd : (ps.map Prod.fst).Nodup) : insertAll2 ps = (true, ps) := by
  have h := insertAll2_loop ps true [] hnd (by simp)
  rw [List.nil_append] at h
  exact h

theorem eval_pair (a b x : ℚ) : eval (mkPoly [a, b]) x = a + b * x := by
  rw [eval_mkPoly, eval_cons, eval_cons, eval_nil]
  ring

theorem basis_foldl (g : ℕ → List ℚ) (j : ℕ) (x : ℚ) (l : List ℕ) :
    ∀ (w : List ℚ),
    eval (l.foldl (fun frac k => if k ≠ j then polyMul frac (g k) else frac) w) x
      = eval w x * ((l.filter (fun k => k != j)).map
          (fun k => eval (g k) x)).prod := by
  induction l with
  | nil =>
      intro w
      simp
  | cons a t ih =>
      intro w
      rw [List.foldl_cons]
      by_cases ha : a ≠ j
      · rw [if_pos ha, ih, eval_polyMul,
          List.filter_cons_of_pos (by simpa using ha), List.map_cons,
          List.prod_cons]
        ring
      · rw [if_neg ha, ih, List.filter_cons_of_neg (by simpa using ha)]

theorem eval_basisPoly (ps : List (ℚ × ℚ)) (j : ℕ) (x : ℚ) :
    eval (basisPoly ps j) x
      = (((List.range ps.length).filter (fun k => k != j)).map
          (fun k => (-(xco ps k) / (xco ps j - xco ps k))
            + (1 / (xco ps j - xco ps k)) * x)).prod := by
  unfold basisPoly
  rw [basis_foldl (fun k => mkPoly [-(xco ps k) / (xco ps j - xco ps k),
      1 / (xco ps j - xco ps k)]) j x (List.range ps.length) onePoly]
  rw [eval_onePoly, one_mul]
  congr 1
  apply List.map_congr_left
  intro k _
  rw [eval_pair]

theorem foldl_polyAdd_eval (g : ℕ → List ℚ) (x : ℚ) (l : List ℕ) :
    ∀ (w : List ℚ),
    eval (l.foldl (fun sum j => polyAdd sum (g j)) w) x
      = eval w x + (l.map (fun j => eval (g j) x)).sum := by
  induction l with
  | nil =>
      intro w
      simp
  | cons a t ih =>
      intro w
      rw [List.foldl_cons, ih, eval_polyAdd, List.map_cons, List.sum_cons]
      ring

theorem eval_polynomial (ps : List (ℚ × ℚ)) (x : ℚ) :
    eval (polynomial ps) x
      = ((List.range ps.length).map
          (fun j => yco ps j * eval (basisPoly ps j) x)).sum := by
  unfold polynomial
  rw [foldl_polyAdd_eval (fun j => polyScale (yco ps j) (basisPoly ps j)) x
    (List.range ps.length) [], eval_nil, zero_add]
  congr 1
  apply List.map_congr_left
  intro j _
  rw [eval_polyScale]

theorem xco_ne (ps : List (ℚ × ℚ)) (hnd : (ps.map Prod.fst).Nodup)
    {i k : ℕ} (hi : i < ps.length) (hk : k < ps.length) (hik : i ≠ k) :
    xco ps i ≠ xco ps k := by
  intro h
  apply hik
  unfold xco at h
  rw [List.getD_eq_getElem ps (0, 0) hi, List.getD_eq_getElem ps (0, 0) hk] at h
  have hi2 : i < (ps.map Prod.fst).length := by
    rw [List.length_map]
    exact hi
  have hk2 : k < (ps.map Prod.fst).length := by
    rw [List.length_map]
    exact hk
  have h2 : (ps.map Prod.fst).get ⟨i, hi2⟩ = (ps.map Prod.fst).get ⟨k, hk2⟩ := by
    rw [List.get_eq_getElem, List.get_eq_getElem, List.getElem_map,
      List.getElem_map]
    exact h
  have h3 := (List.Nodup.get_inj_iff hnd).mp h2
  exact congrArg Fin.val h3

theorem range_sum_single (n i : ℕ) (hi : i < n) (f : ℕ → ℚ) :
    ((List.range n).map (fun j => if j = i then f j else 0)).sum = f i := by
  rw [list_sum_map_range, Finset.sum_ite_eq' (Finset.range n) i f,
    if_pos (Finset.mem_range.mpr hi)]

/-- At each stored node index, the expanded Lagrange polynomial
evaluates back to the stored y. -/
theorem polynomial_node (ps : List (ℚ × ℚ))
    (hnd : (ps.map Prod.fst).Nodup) (i : ℕ) (hi : i < ps.length) :
    eval (polynomial ps) (xco ps i) = yco ps i := by
  rw [eval_polynomial]
  have hmap : (List.range ps.length).map
      (fun j => yco ps j * eval (basisPoly ps j) (xco ps i))
      = (List.range ps.length).map (fun j => if j = i then yco ps j else 0) := by
    apply List.map_congr_left
    intro j hj
    rw [List.mem_range] at hj
    by_cases hij : j = i
    · subst hij
      rw [if_pos rfl, eval_basisPoly, List.prod_eq_one, mul_one]
      intro v hv
      obtain ⟨k, hk, rfl⟩ := List.mem_map.mp hv
      rw [List.mem_filter, List.mem_range] at hk
      obtain ⟨hkn, hkj⟩ := hk
      have hne : xco ps j - xco ps k ≠ 0 := by
        apply sub_ne_zero.mpr
        exact xco_ne ps hnd hj hkn (Ne.symm (by simpa using hkj))
      field_simp
      ring
    · rw [if_neg hij, eval_basisPoly, List.prod_eq_zero, mul_zero]
      apply List.mem_map.mpr
      refine ⟨i, ?_, ?_⟩
      · rw [List.mem_filter, List.mem_range]
        exact ⟨hi, by simpa using fun h => hij h.symm⟩
      · ring
  rw [hmap, range_sum_single ps.length i hi]

/-- C1: for every point list with pairwise-distinct x-coordinates, all
inserts succeed and the interpolant reproduces every inserted `y_j` at
its `x_j`, both through the record-based direct evaluation `calc` and
through evaluating the polynomial built by `polynomial()`. -/
theorem interpolation_reproduces_nodes (ps : List (ℚ × ℚ))
    (hnd : (ps.map Prod.fst).Nodup) :
    (insertAll1 ps).1 = true ∧
    (∀ p ∈ ps, calc1 (insertAll1 ps).2 p.1 = p.2) ∧
    insertAll2 ps = (true, ps) ∧
    (∀ p ∈ ps, eval (polynomial ps) p.1 = p.2) := by
  obtain ⟨hok, hinv, hproj⟩ := insertAll1_spec ps hnd
  refine ⟨hok, ?_, insertAll2_spec ps hnd, ?_⟩
  · intro p hp
    rw [← hproj] at hp
    obtain ⟨c, hc, hcp⟩ := List.mem_map.mp hp
    have hcx : c.x = p.1 := congrArg Prod.fst hcp
    have hcy : c.y = p.2 := congrArg Prod.snd hcp
    rw [← hcx, ← hcy]
    exact calc1_node _ hinv c hc
  · intro p hp
    obtain ⟨i, hi, hip⟩ := List.mem_iff_getElem.mp hp
    have hx : xco ps i = p.1 := by
      unfold xco
      rw [List.getD_eq_getElem ps (0, 0) hi, hip]
    have hy : yco ps i = p.2 := by
      unfold yco
      rw [List.getD_eq_getElem ps (0, 0) hi, hip]
    rw [← hx, ← hy]
    exact polynomial_node ps hnd i hi

/-- Witness for C1 at the spec's concrete scenario
`(1,7), (2,-2), (3,6)`. -/
theorem interpolation_reproduces_nodes_witness :
    (insertAll1 [(1, 7), (2, -2), (3, 6)]).1 = true ∧
    (∀ p ∈ ([(1, 7), (2, -2), (3, 6)] : List (ℚ × ℚ)),
      calc1 (insertAll1 [(1, 7), (2, -2), (3, 6)]).2 p.1 = p.2) ∧
    insertAll2 [(1, 7), (2, -2), (3, 6)]
      = (true, [(1, 7), (2, -2), (3, 6)]) ∧
    (∀ p ∈ ([(1, 7), (2, -2), (3, 6)] : List (ℚ × ℚ)),
      eval (polynomial [(1, 7), (2, -2), (3, 6)]) p.1 = p.2) :=
  interpolation_reproduces_nodes [(1, 7), (2, -2), (3, 6)] (by decide)

/-- C10: an `Interpolator` holding no points — newly constructed or
right after `clear()` — yields the zero polynomial (empty coefficient
list, `isZero` true) from `polynomial()`, and `calc` returns the
additive identity at every x. -/
theorem empty_interpolator_zero (x : ℚ) (ps : List (ℚ × ℚ)) :
    polynomial [] = [] ∧
    isZero (polynomial []) = true ∧
    polynomial (clear ps) = [] ∧
    isZero (polynomial (clear ps)) = true ∧
    eval (polynomial (clear ps)) x = 0 ∧
    calc1 [] x = 0 :=
  ⟨rfl, rfl, rfl, rfl, rfl, rfl⟩

end CosineKitty
